import Mathlib

/-!
Verification of the vex package manager core against its specification.

The definitions below are shallow embeddings of the TypeScript sources:
  * `Vex.Semver`   — `src/core/semver.ts` (version algebra),
  * `Vex.Hash`     — `src/utils/hash.ts` (`verifyIntegrity`, base64 digests),
  * `Vex.Fetch`    — `src/core/fetcher.ts` (`Fetcher.fetchPackage`),
  * `Vex.Link`     — `src/core/linker.ts` (hoisting policy of `Linker.link`),
  * `Vex.Lock`     — `src/core/lockfile.ts` (`write`/`read`/`toResolvedPackages`).

JavaScript `Record`s are modelled as association lists in insertion order
(JS objects preserve insertion order); JS strings are Lean `String`s and
`localeCompare` is modelled as the lexicographic order on `String`.
-/

namespace Vex

/-! ## Version algebra (`semver.ts`) -/

/-- A prerelease identifier: `prerelease.split('.').map(id => /^\d+$/.test(id) ? parseInt(id, 10) : id)`. -/
inductive PreId where
  | num (n : Nat)
  | str (s : String)
deriving DecidableEq, Repr

/-- The `SemVer` interface.  `major/minor/patch` are `Int` because the loose
parser goes through JS `parseInt`, which can yield negative values. -/
structure SemVer where
  major : Int
  minor : Int
  patch : Int
  prerelease : List PreId
  build : List String
  raw : String
deriving DecidableEq, Repr

/-- `[0-9A-Za-z-]`, the identifier character class of `SEMVER_REGEX`. -/
def idChar (c : Char) : Bool := c.isAlphanum || c = '-'

/-- Digit run to a number, as `parseInt(digits, 10)` on an all-digit string. -/
def digitsToNat (l : List Char) : Nat :=
  l.foldl (fun a c => a * 10 + (c.toNat - 48)) 0

/-- JS `trim()` on a character list (leading and trailing whitespace
removed); used instead of `String.trim`, which does not reduce in the
kernel. -/
def trimL (l : List Char) : List Char :=
  ((l.dropWhile Char.isWhitespace).reverse.dropWhile Char.isWhitespace).reverse

/-- JS `String.prototype.split(sep)` for a single-character separator. -/
def splitOnChar (c : Char) : List Char → List (List Char)
  | [] => [[]]
  | x :: xs =>
    match splitOnChar c xs with
    | h :: t => if x = c then [] :: h :: t else (x :: h) :: t
    | [] => if x = c then [[], []] else [[x]]

/-- The dot-splitting used for prerelease/build identifier lists. -/
def splitDots (l : List Char) : List (List Char) := splitOnChar '.' l

/-- Does a character list match `[0-9A-Za-z-]+(\.[0-9A-Za-z-]+)*`? -/
def idsOk (l : List Char) : Bool :=
  (splitDots l).all (fun seg => !seg.isEmpty && seg.all idChar)

/-- Identifier mapping of the prerelease group: numeric identifiers become numbers. -/
def parseIdsPre (l : List Char) : List PreId :=
  (splitDots l).map (fun seg =>
    if seg.all Char.isDigit then .num (digitsToNat seg) else .str (String.mk seg))

/-- Suffix of the version after `major.minor.patch`: optional `-prerelease`,
optional `+build`, then end of input, per `SEMVER_REGEX`. -/
def parseTail (l : List Char) : Option (List PreId × List String) :=
  match l with
  | [] => some ([], [])
  | '-' :: rest =>
    let pre := rest.takeWhile (fun c => c ≠ '+')
    let rest2 := rest.dropWhile (fun c => c ≠ '+')
    if idsOk pre then
      match rest2 with
      | [] => some (parseIdsPre pre, [])
      | '+' :: b => if idsOk b then some (parseIdsPre pre, (splitDots b).map String.mk) else none
      | _ => none
    else none
  | '+' :: b => if idsOk b then some ([], (splitDots b).map String.mk) else none
  | _ => none

/-- `parse(version)`: `version.trim().match(SEMVER_REGEX)` — optional `v`,
three dot-separated digit runs, optional prerelease and build. -/
def parse (version : String) : Option SemVer :=
  let l := trimL version.data
  let l1 := match l with | 'v' :: r => r | r => r
  let d1 := l1.takeWhile Char.isDigit
  match l1.dropWhile Char.isDigit with
  | '.' :: l2 =>
    let d2 := l2.takeWhile Char.isDigit
    match l2.dropWhile Char.isDigit with
    | '.' :: l3 =>
      let d3 := l3.takeWhile Char.isDigit
      if d1.isEmpty || d2.isEmpty || d3.isEmpty then none
      else
        match parseTail (l3.dropWhile Char.isDigit) with
        | some (pre, build) =>
          some { major := (digitsToNat d1 : Int), minor := (digitsToNat d2 : Int),
                 patch := (digitsToNat d3 : Int), prerelease := pre, build := build,
                 raw := version }
        | none => none
    | _ => none
  | _ => none

/-- `valid(version)`. -/
def valid (version : String) : Bool := (parse version).isSome

/-- JS `parseInt(s, 10)`: skip leading whitespace, optional sign, a digit
prefix; `none` models `NaN`. -/
def jsParseInt (l : List Char) : Option Int :=
  let go : List Char → Option Nat := fun r =>
    let ds := r.takeWhile Char.isDigit
    if ds.isEmpty then none else some (digitsToNat ds)
  match l.dropWhile Char.isWhitespace with
  | '-' :: r => (go r).map (fun n => -(n : Int))
  | '+' :: r => (go r).map (fun n => (n : Int))
  | r => (go r).map (fun n => (n : Int))

/-- `parseLoose(version)`: exact parse first, then zero-filled partial parse.
The source's null branch is unreachable (`parseInt(x) || 0` always yields a
number), so the function is total. -/
def parseLoose (version : String) : SemVer :=
  match parse version with
  | some s => s
  | none =>
    let stripped := match version.data with | 'v' :: r => r | r => r
    let parts := splitDots stripped
    let num : Nat → Int := fun i =>
      match parts.get? i with
      | some seg => match jsParseInt seg with | some n => n | none => 0
      | none => 0
    { major := num 0, minor := num 1, patch := num 2,
      prerelease := [], build := [], raw := version }

/-- One step of the prerelease identifier comparison inside `compare`:
numbers compare numerically and are lower than strings; strings via
`localeCompare` (modelled as the lexicographic order on `String`). -/
def cmpPreIds (a b : PreId) : Int :=
  match a, b with
  | .num x, .num y => if x ≠ y then (if x > y then 1 else -1) else 0
  | .num _, .str _ => -1
  | .str _, .num _ => 1
  | .str x, .str y => if x < y then -1 else if y < x then 1 else 0

/-- The prerelease loop of `compare`: pointwise identifiers, missing
identifier (shorter list) is lower. -/
def cmpPre : List PreId → List PreId → Int
  | [], [] => 0
  | [], _ :: _ => -1
  | _ :: _, [] => 1
  | a :: as, b :: bs =>
    let c := cmpPreIds a b
    if c ≠ 0 then c else cmpPre as bs

/-- `compare(a, b)` on parsed versions: major/minor/patch, then absence of
prerelease wins, then the prerelease loop; build is ignored. -/
def compare (a b : SemVer) : Int :=
  if a.major ≠ b.major then (if a.major > b.major then 1 else -1)
  else if a.minor ≠ b.minor then (if a.minor > b.minor then 1 else -1)
  else if a.patch ≠ b.patch then (if a.patch > b.patch then 1 else -1)
  else if a.prerelease.length = 0 ∧ b.prerelease.length > 0 then 1
  else if a.prerelease.length > 0 ∧ b.prerelease.length = 0 then -1
  else cmpPre a.prerelease b.prerelease

/-- The string-typed use of `compare` (both arguments parsed first).  The
source throws `Invalid semver` when a parse fails; every caller in scope
filters by `valid` first, so that branch is modelled as `0`. -/
def cmpStr (a b : String) : Int :=
  match parse a, parse b with
  | some x, some y => compare x y
  | _, _ => 0

/-! ### Range parsing -/

/-- A comparator operator.  The source turns an absent operator into `'='`
(`op || '='`), so the empty operator never reaches `testComparator`. -/
inductive Op where
  | eq | gt | lt | ge | le
deriving DecidableEq, Repr

/-- A parsed comparator. -/
structure Comparator where
  operator : Op
  semver : SemVer
deriving DecidableEq, Repr

/-- A parsed range: a disjunction (`||`) of comparator conjunctions. -/
structure Range where
  set : List (List Comparator)
deriving DecidableEq, Repr

/-- The character class `[<>=]` of the normalization regexes. -/
def isOpChar (c : Char) : Bool := c = '<' || c = '>' || c = '='

/-- Scanner state of `repl1`: inside/right after an operator run, dropping
the whitespace that followed one, or plain text. -/
inductive R1State where
  | norm | ops | drop
deriving DecidableEq, Repr

/-- Left-to-right scan implementing the first normalization pass
`range.replace(/([<>=]+)\s+/g, '$1')`: whitespace directly after a run of
operator characters is removed. -/
def repl1Go (s : R1State) : List Char → List Char
  | [] => []
  | c :: r =>
    if isOpChar c then c :: repl1Go .ops r
    else if Char.isWhitespace c then
      match s with
      | .ops => repl1Go .drop r
      | .drop => repl1Go .drop r
      | .norm => c :: repl1Go .norm r
    else c :: repl1Go .norm r

def repl1 (l : List Char) : List Char := repl1Go .norm l

/-- Left-to-right scan implementing the second normalization pass
`.replace(/\s+([<>=])/g, ' $1')`: a whitespace run directly before an
operator character collapses to a single space.  `pend` buffers the pending
whitespace run (in reverse). -/
def repl2Go (pend : List Char) : List Char → List Char
  | [] => pend.reverse
  | c :: r =>
    if Char.isWhitespace c then repl2Go (c :: pend) r
    else if isOpChar c then
      if pend.isEmpty then c :: repl2Go [] r else ' ' :: c :: repl2Go [] r
    else pend.reverse ++ c :: repl2Go [] r

def repl2 (l : List Char) : List Char := repl2Go [] l

/-- Accumulator scan for `wsTokens`; `cur` is the current token reversed. -/
def wsTokensGo (cur : List Char) : List Char → List (List Char)
  | [] => if cur.isEmpty then [] else [cur.reverse]
  | c :: r =>
    if Char.isWhitespace c then
      if cur.isEmpty then wsTokensGo [] r else cur.reverse :: wsTokensGo [] r
    else wsTokensGo (c :: cur) r

/-- JS `split(/\s+/)` followed by the loop's `if (!part) continue`:
the non-empty whitespace-separated tokens, in order. -/
def wsTokens (l : List Char) : List (List Char) := wsTokensGo [] l

/-- JS `range.split('||')` (the surrounding `\s*` of the source regex is
absorbed by the `orPart.trim()` every part goes through). -/
def splitOrs : List Char → List (List Char)
  | [] => [[]]
  | '|' :: '|' :: r => [] :: splitOrs r
  | c :: r =>
    match splitOrs r with
    | h :: t => (c :: h) :: t
    | [] => [[c]]

/-- The upper bound of a caret comparator (`^`): bump at the first non-zero
component. -/
def caretUpper (s : SemVer) : SemVer :=
  if s.major ≠ 0 then
    { s with major := s.major + 1, minor := 0, patch := 0, prerelease := [], build := [] }
  else if s.minor ≠ 0 then
    { s with minor := s.minor + 1, patch := 0, prerelease := [], build := [] }
  else
    { s with patch := s.patch + 1, prerelease := [], build := [] }

/-- The upper bound of a tilde comparator (`~`): bump the minor. -/
def tildeUpper (s : SemVer) : SemVer :=
  { s with minor := s.minor + 1, patch := 0, prerelease := [], build := [] }

/-- The leading-operator match `^(>=|<=|>|<|=)?(.+)$`: an operator prefix is
taken only when at least one character remains for the version group. -/
def splitOp (part : List Char) : Op × List Char :=
  match part with
  | '>' :: '=' :: c :: r => (.ge, c :: r)
  | '<' :: '=' :: c :: r => (.le, c :: r)
  | '>' :: c :: r => (.gt, c :: r)
  | '<' :: c :: r => (.lt, c :: r)
  | '=' :: c :: r => (.eq, c :: r)
  | p => (.eq, p)

/-- The per-token body of `parseComparatorSet`'s loop: caret and tilde sugar,
otherwise an optional operator (defaulted to `=`) and a loose version. -/
def parsePart (part : List Char) : List Comparator :=
  match part with
  | '^' :: v =>
    let s := parseLoose (String.mk v)
    [⟨.ge, s⟩, ⟨.lt, caretUpper s⟩]
  | '~' :: v =>
    let s := parseLoose (String.mk v)
    [⟨.ge, s⟩, ⟨.lt, tildeUpper s⟩]
  | p =>
    let (op, v) := splitOp p
    [⟨op, parseLoose (String.mk v)⟩]

/-- `parseComparatorSet(range)`: a hyphen range `A - B` becomes
`>=A <=B`; otherwise the input is normalized and each whitespace-separated
token contributes its comparators. -/
def parseComparatorSet (l : List Char) : List Comparator :=
  match wsTokens l with
  | [t1, ['-'], t2] =>
    [⟨.ge, parseLoose (String.mk t1)⟩, ⟨.le, parseLoose (String.mk t2)⟩]
  | _ =>
    ((wsTokens (repl2 (repl1 l))).map parsePart).flatten

/-- `parseRange(range)`: the special ranges match everything; otherwise the
`||` parts each contribute a comparator set (kept when non-empty, or when the
part is blank, which also matches everything). -/
def parseRange (range : String) : Range :=
  if range = "*" ∨ range = "" ∨ range = "x" ∨ range = "X" then ⟨[[]]⟩
  else if range = "latest" then ⟨[[]]⟩
  else
    let orParts := splitOrs range.data
    ⟨orParts.foldr
      (fun p acc =>
        let t := trimL p
        let comps := parseComparatorSet t
        if comps.length > 0 ∨ t = [] then comps :: acc else acc)
      []⟩

/-- `testComparator(semver, comp)`. -/
def testComparator (v : SemVer) (c : Comparator) : Bool :=
  let cmp := compare v c.semver
  match c.operator with
  | .eq => cmp = 0
  | .gt => cmp > 0
  | .lt => cmp < 0
  | .ge => cmp ≥ 0
  | .le => cmp ≤ 0

/-- One OR-clause of `satisfies`: the empty clause matches everything; all
comparators must hold; a prerelease version whose triple matches no
prerelease comparator is admitted only when some comparator carries a
prerelease at all. -/
def clauseAdmits (sv : SemVer) (comps : List Comparator) : Bool :=
  if comps.isEmpty then true
  else if comps.all (testComparator sv) then
    if !sv.prerelease.isEmpty &&
        !comps.any (fun c =>
          !c.semver.prerelease.isEmpty && c.semver.major = sv.major &&
            c.semver.minor = sv.minor && c.semver.patch = sv.patch) then
      comps.any (fun c => !c.semver.prerelease.isEmpty)
    else true
  else false

/-- `satisfies(version, range)`. -/
def satisfies (version range : String) : Bool :=
  match parse version with
  | none => false
  | some sv => (parseRange range).set.any (fun comps => clauseAdmits sv comps)

/-! ### Sorting and maximum selection -/

/-- The descending insertion relation of `rsort`'s comparator
`(a, b) => compare(b, a)`: `a` may precede `b` when `compare(b, a) <= 0`. -/
def rsortRel (a b : String) : Prop := cmpStr b a ≤ 0

instance : DecidableRel rsortRel := fun a b => by
  unfold rsortRel; infer_instance

/-- `rsort(versions)`: sort descending by `compare`. -/
def rsort (l : List String) : List String := List.insertionSort rsortRel l

/-- `maxVersion(versions)`: drop invalid entries, return the head of the
descending sort (or `null`). -/
def maxVersion (versions : List String) : Option String :=
  let validVersions := versions.filter valid
  match rsort validVersions with
  | [] => none
  | h :: _ => some h

/-- `maxSatisfying(versions, range)`. -/
def maxSatisfying (versions : List String) (range : String) : Option String :=
  maxVersion (versions.filter (fun v => satisfies v range))

/-! ## Hashing utilities (`utils/hash.ts`) -/

/-- The base64 alphabet character for a 6-bit value. -/
def b64Char (n : Nat) : Char :=
  if n < 26 then Char.ofNat (65 + n)
  else if n < 52 then Char.ofNat (97 + (n - 26))
  else if n < 62 then Char.ofNat (48 + (n - 52))
  else if n = 62 then '+' else '/'

/-- Standard base64 of a byte list, as Node's `digest('base64')`. -/
def b64 : List Nat → List Char
  | [] => []
  | [a] => [b64Char (a / 4 % 64), b64Char (a % 4 * 16), '=', '=']
  | [a, b] => [b64Char (a / 4 % 64), b64Char (a % 4 * 16 + b / 16),
               b64Char (b % 16 * 4), '=']
  | a :: b :: c :: rest =>
    b64Char (a / 4 % 64) :: b64Char (a % 4 * 16 + b / 16) ::
      b64Char (b % 16 * 4 + c / 64) :: b64Char (c % 64) :: b64 rest

/-- `verifyIntegrity(data, integrity)` from `utils/hash.ts`, parameterized by
the digest family `hash` modelling Node's `crypto.createHash` (`hash alg
data` is the digest byte sequence of `data` under algorithm `alg`): split the
integrity at `-`, require exactly two parts and a supported algorithm, then
compare the base64 digest with the expected part. -/
def verifyIntegrity (hash : String → List Nat → List Nat)
    (data : List Nat) (integrity : String) : Bool :=
  match splitOnChar '-' integrity.data with
  | [alg, expected] =>
    let algS := String.mk alg
    if algS = "sha512" ∨ algS = "sha256" ∨ algS = "sha1" then
      String.mk (b64 (hash algS data)) == String.mk expected
    else false
  | _ => false

/-- The resolver's integrity synthesis (`core/resolver.ts`):
`versionData.dist.integrity || 'sha1-' + versionData.dist.shasum`, where the
falsy `||` also replaces an empty integrity string. -/
def resolveIntegrity (distIntegrity : Option String) (shasum : String) : String :=
  match distIntegrity with
  | some s => if s = "" then "sha1-" ++ shasum else s
  | none => "sha1-" ++ shasum

/-- Lower-case hexadecimal digit, the alphabet of registry `shasum`s. -/
def isHexDigit (c : Char) : Bool :=
  c.isDigit || ('a' ≤ c && c ≤ 'f')

/-! ## Fetcher (`core/fetcher.ts`) -/

/-- `ResolvedPackage` (types/lockfile.ts); `Record`s are association lists in
insertion order. -/
structure ResolvedPackage where
  name : String
  version : String
  resolved : String
  integrity : String
  dependencies : List (String × String)
  peerDependencies : List (String × String)
  optionalDependencies : List (String × String)
  bin : List (String × String)
  optional : Bool
  dev : Bool
deriving DecidableEq, Repr

/-- Filesystem effects performed by the fetcher and by `atomicWrite`, in
program order.  `writeMeta p` is the `writeMetadata` call writing the
`<p>/.vex-meta.json` sidecar. -/
inductive FsAction where
  | rmrf (p : String)
  | mkdirp (p : String)
  | writeFile (p : String) (bytes : List Nat)
  | writeText (p : String) (content : String)
  | extractTarball (dest : String) (bytes : List Nat)
  | writeMeta (storePath : String)
  | rename (src dst : String)
deriving DecidableEq, Repr

def FsAction.isRen : FsAction → Bool
  | .rename _ _ => true
  | _ => false

/-- The ambient state a single `fetchPackage` call reads: filesystem
existence and contents, the registry download, the digest functions, and the
fetcher configuration. -/
structure FetchEnv where
  existsFs : String → Bool
  readFile : String → List Nat
  download : String → List Nat
  hash : String → List Nat → List Nat
  contentHash : String → String
  storeDir : String
  cacheDir : String
  offline : Bool

/-- `name.replace(/[@/]/g, '+')`. -/
def safeName (name : String) : String :=
  String.mk (name.data.map (fun c => if c = '@' ∨ c = '/' then '+' else c))

/-- `Fetcher.getStorePath`: `<storeDir>/<safeName>@<version>_<hash8>` with
`hash8` the first 8 characters of `contentHash(integrity || name@version)`. -/
def getStorePath (env : FetchEnv) (pkg : ResolvedPackage) : String :=
  let key := if pkg.integrity ≠ "" then pkg.integrity
             else pkg.name ++ "@" ++ pkg.version
  let h8 := String.mk ((env.contentHash key).data.take 8)
  env.storeDir ++ "/" ++ safeName pkg.name ++ "@" ++ pkg.version ++ "_" ++ h8

/-- `Fetcher.getTarballPath`: `<cacheDir>/<safeName>-<version>.tgz`. -/
def getTarballPath (env : FetchEnv) (pkg : ResolvedPackage) : String :=
  env.cacheDir ++ "/" ++ safeName pkg.name ++ "-" ++ pkg.version ++ ".tgz"

/-- `exists(storePath) && this.verifyPackage(storePath)`: the entry is reused
when the directory exists and holds both the `.vex-meta.json` sidecar and a
`package.json`. -/
def storeEntryValid (env : FetchEnv) (storePath : String) : Bool :=
  env.existsFs storePath &&
    env.existsFs (storePath ++ "/.vex-meta.json") &&
    env.existsFs (storePath ++ "/package.json")

/-- `path.dirname`. -/
def dirname (p : String) : String :=
  match splitOnChar '/' p.data with
  | [] => "."
  | [_] => "."
  | parts => String.mk (List.intercalate ['/'] parts.dropLast)

structure FetchResult where
  name : String
  version : String
  path : String
  fromCache : Bool
deriving DecidableEq, Repr

/-- The two errors `fetchPackage` itself raises. -/
inductive FetchErr where
  | offlineMiss
  | integrityMismatch
deriving DecidableEq, Repr

/-- `Fetcher.fetchPackage` without the surrounding `catch`: store hit check,
then tarball cache, then (unless offline) download with integrity check, then
cache write, removal of the previous entry, extraction directly into the
store path and the `.vex-meta.json` sidecar last.  Returns the result with
the filesystem actions in program order; the actions before a raise are
empty, matching the source (the integrity check precedes every write). -/
def fetchPackageCore (env : FetchEnv) (pkg : ResolvedPackage) :
    Except FetchErr (FetchResult × List FsAction) :=
  let storePath := getStorePath env pkg
  if storeEntryValid env storePath then
    .ok (⟨pkg.name, pkg.version, storePath, true⟩, [])
  else
    let tarballPath := getTarballPath env pkg
    let commit : List Nat → List FsAction →
        Except FetchErr (FetchResult × List FsAction) := fun tarball acts =>
      .ok (⟨pkg.name, pkg.version, storePath, false⟩,
        acts ++ [.rmrf storePath, .mkdirp storePath,
                 .extractTarball storePath tarball, .writeMeta storePath])
    if env.existsFs tarballPath then
      commit (env.readFile tarballPath) []
    else if env.offline then .error .offlineMiss
    else
      let tarball := env.download pkg.resolved
      if pkg.integrity ≠ "" && !verifyIntegrity env.hash tarball pkg.integrity then
        .error .integrityMismatch
      else
        commit tarball [.mkdirp (dirname tarballPath), .writeFile tarballPath tarball]

/-- `fetchPackage` with its `catch`: a failure on an `optional` package is
demoted to a null result (and no store action has been performed). -/
def fetchPackage (env : FetchEnv) (pkg : ResolvedPackage) :
    Except FetchErr (Option FetchResult × List FsAction) :=
  match fetchPackageCore env pkg with
  | .ok (r, acts) => .ok (some r, acts)
  | .error e => if pkg.optional then .ok (none, []) else .error e

/-! ## Linker hoisting (`core/linker.ts`) -/

/-- JS property lookup on an object modelled as an association list. -/
def lookupA {α : Type} (k : String) : List (String × α) → Option α
  | [] => none
  | e :: rest => if k = e.1 then some e.2 else lookupA k rest

/-- The version multiset of `name` across the flat `packages` map, in
iteration order (the per-name `counts` map of `Linker.link`). -/
def versionsOf (packages : List (String × ResolvedPackage)) (name : String) :
    List String :=
  (packages.filter (fun e => e.2.name = name)).map (fun e => e.2.version)

/-- First-occurrence deduplication: the key iteration order of the per-name
`counts` map (`seen` accumulates emitted versions). -/
def dedupFirstGo (seen : List String) : List String → List String
  | [] => []
  | v :: rest =>
    if v ∈ seen then dedupFirstGo seen rest
    else v :: dedupFirstGo (v :: seen) rest

def dedupFirst (l : List String) : List String := dedupFirstGo [] l

/-- The `maxCount` loop of `Linker.link` choosing the most common version:
update only on a strictly greater count, so ties keep the earlier version. -/
def mostCommonGo (all : List String) : List String → Nat → String → String
  | [], _, best => best
  | v :: rest, maxCount, best =>
    if all.count v > maxCount then mostCommonGo all rest (all.count v) v
    else mostCommonGo all rest maxCount best

def mostCommon (vs : List String) : String := mostCommonGo vs (dedupFirst vs) 0 ""

/-- The hoisted version `Linker.link` records for `name`: the direct
dependency hint when it is truthy and that exact version occurs in the counts
map, otherwise the most common version; unset when the winner is falsy
(`if (hoistedVersion)`), or when no package of that name exists. -/
def hoistChoice (hints : List (String × String))
    (packages : List (String × ResolvedPackage)) (name : String) :
    Option String :=
  let vs := versionsOf packages name
  if vs.isEmpty then none
  else
    let mcv := mostCommon vs
    let mc := if mcv ≠ "" then some mcv else none
    match lookupA name hints with
    | some d => if d ≠ "" ∧ d ∈ vs then some d else mc
    | none => mc

/-- The hoisted-link loop: the packages placed at `modules/<name>` are
exactly those whose version equals the hoisted choice for their name. -/
def topLevelLinked (hints : List (String × String))
    (packages : List (String × ResolvedPackage)) :
    List (String × ResolvedPackage) :=
  (packages.filter
    (fun e => hoistChoice hints packages e.2.name = some e.2.version)).map
    (fun e => (e.2.name, e.2))

/-! ## Lockfile manager (`core/lockfile.ts`) -/

/-- `string | Record<string, string>`, the `bin` field of a lockfile entry. -/
inductive BinField where
  | str (s : String)
  | map (m : List (String × String))
deriving DecidableEq, Repr

/-- `LockfilePackage` (types/lockfile.ts): `none` fields are omitted from the
JSON.  The declared optional fields `engines`/`os`/`cpu`/`peer` are never
produced by `LockfileManager.write` and are not modelled. -/
structure LockfilePackage where
  version : String
  resolved : String
  integrity : String
  dependencies : Option (List (String × String))
  peerDependencies : Option (List (String × String))
  optionalDependencies : Option (List (String × String))
  bin : Option BinField
  optional : Option Bool
  dev : Option Bool
deriving DecidableEq, Repr

structure Lockfile where
  version : Nat
  packages : List (String × LockfilePackage)
  dependencies : List (String × String)
  devDependencies : Option (List (String × String))
deriving DecidableEq, Repr

/-- The manifest fields `LockfileManager.write` consumes. -/
structure PackageJson where
  dependencies : Option (List (String × String))
  devDependencies : Option (List (String × String))
deriving DecidableEq, Repr

def LOCKFILE_VERSION : Nat := 1

/-- The per-package projection of `LockfileManager.write`: empty sub-maps and
false flags are omitted; field order matches the assignment order. -/
def toLockPkg (pkg : ResolvedPackage) : LockfilePackage :=
  { version := pkg.version, resolved := pkg.resolved, integrity := pkg.integrity,
    dependencies :=
      if pkg.dependencies.isEmpty then none else some pkg.dependencies,
    peerDependencies :=
      if pkg.peerDependencies.isEmpty then none else some pkg.peerDependencies,
    optionalDependencies :=
      if pkg.optionalDependencies.isEmpty then none
      else some pkg.optionalDependencies,
    bin := if pkg.bin.isEmpty then none else some (.map pkg.bin),
    optional := if pkg.optional then some true else none,
    dev := if pkg.dev then some true else none }

/-- The key sort of `write`: `.sort(([a], [b]) => a.localeCompare(b))`, with
`localeCompare` modelled as the lexicographic order on `String`. -/
def sortEntries (l : List (String × ResolvedPackage)) :
    List (String × ResolvedPackage) :=
  List.insertionSort (fun a b => a.1 ≤ b.1) l

instance : IsTotal (String × ResolvedPackage) (fun a b => a.1 ≤ b.1) :=
  ⟨fun a b => le_total a.1 b.1⟩

instance : IsTrans (String × ResolvedPackage) (fun a b => a.1 ≤ b.1) :=
  ⟨fun _ _ _ h1 h2 => le_trans h1 h2⟩

/-- `LockfileManager.write`, producing the lockfile value; serialization and
the atomic write are modelled separately below.  The field order of the
source literal is `version, packages, dependencies, devDependencies`. -/
def writeLock (packages : List (String × ResolvedPackage)) (pj : PackageJson) :
    Lockfile :=
  { version := LOCKFILE_VERSION,
    packages := (sortEntries packages).map (fun e => (e.1, toLockPkg e.2)),
    dependencies := pj.dependencies.getD [],
    devDependencies := pj.devDependencies }

/-- `LockfileManager.read` on an in-memory lockfile value:
`!content.version || content.version !== LOCKFILE_VERSION` rejects. -/
def readLock (lf : Lockfile) : Option Lockfile :=
  if lf.version = 0 ∨ lf.version ≠ LOCKFILE_VERSION then none else some lf

/-- Index of the last occurrence of a character (`String.lastIndexOf`). -/
def lastIndexOf (c : Char) : List Char → Option Nat
  | [] => none
  | x :: xs =>
    match lastIndexOf c xs with
    | some i => some (i + 1)
    | none => if x = c then some 0 else none

/-- Name recovery of `toResolvedPackages`: split the key at its last `@`
(`atIndex > 0 ? key.substring(0, atIndex) : key`). -/
def nameFromKey (key : String) : String :=
  match lastIndexOf '@' key.data with
  | some i => if i > 0 then String.mk (key.data.take i) else key
  | none => key

/-- `name.split('/').pop()`, used to normalize a string-valued `bin`. -/
def lastSegment (name : String) : String :=
  match (splitOnChar '/' name.data).getLast? with
  | some seg => String.mk seg
  | none => name

/-- The per-entry body of `LockfileManager.toResolvedPackages`. -/
def fromLockPkg (key : String) (lp : LockfilePackage) : ResolvedPackage :=
  let name := nameFromKey key
  { name := name, version := lp.version, resolved := lp.resolved,
    integrity := lp.integrity,
    dependencies := lp.dependencies.getD [],
    peerDependencies := lp.peerDependencies.getD [],
    optionalDependencies := lp.optionalDependencies.getD [],
    bin :=
      match lp.bin with
      | some (.str s) => [(lastSegment name, s)]
      | some (.map m) => m
      | none => [],
    optional := lp.optional.getD false,
    dev := lp.dev.getD false }

/-- `LockfileManager.toResolvedPackages`. -/
def toResolvedPackages (lf : Lockfile) : List (String × ResolvedPackage) :=
  lf.packages.map (fun e => (e.1, fromLockPkg e.1 e.2))

/-! ## Lockfile serialization: `JSON.stringify(lockfile, null, 2) + '\n'` -/

inductive Json where
  | str (s : String)
  | num (n : Nat)
  | bool (b : Bool)
  | obj (fields : List (String × Json))
deriving Repr

/-- Hexadecimal digit for `\u00xx` escapes. -/
def hexDigit (n : Nat) : Char :=
  if n < 10 then Char.ofNat (48 + n) else Char.ofNat (87 + n)

/-- JSON string escaping as performed by `JSON.stringify`. -/
def escChar (c : Char) : List Char :=
  if c = '"' then ['\\', '"']
  else if c = '\\' then ['\\', '\\']
  else if c = '\x08' then ['\\', 'b']
  else if c = '\x0c' then ['\\', 'f']
  else if c = '\n' then ['\\', 'n']
  else if c = '\r' then ['\\', 'r']
  else if c = '\t' then ['\\', 't']
  else if c.toNat < 32 then
    ['\\', 'u', '0', '0', hexDigit (c.toNat / 16), hexDigit (c.toNat % 16)]
  else [c]

def escString (s : String) : String := String.mk (s.data.map escChar).flatten

/-- A quoted JSON string literal. -/
def jStr (s : String) : String := "\"" ++ escString s ++ "\""

/-- Two-space indentation at nesting depth `d` (the `2` of
`JSON.stringify(lockfile, null, 2)`). -/
def jIndent (d : Nat) : String := String.mk (List.replicate (2 * d) ' ')

mutual

/-- `JSON.stringify(v, null, 2)` at nesting depth `d`. -/
def renderJson : Json → Nat → String
  | .str s, _ => jStr s
  | .num n, _ => toString n
  | .bool b, _ => if b then "true" else "false"
  | .obj [], _ => "\x7b" ++ "\x7d"
  | .obj (f :: fs), d =>
    "\x7b" ++ "\n" ++ renderFields (f :: fs) (d + 1) ++ "\n" ++ jIndent d ++ "\x7d"

/-- The comma/newline-separated members of an object, each on its own
indented line as `"key": value`. -/
def renderFields : List (String × Json) → Nat → String
  | [], _ => ""
  | [(k, v)], d => jIndent d ++ jStr k ++ ":" ++ " " ++ renderJson v d
  | (k, v) :: f :: fs, d =>
    jIndent d ++ jStr k ++ ":" ++ " " ++ renderJson v d ++ "," ++ "\n" ++
      renderFields (f :: fs) d

end

/-- Dependency maps as JSON objects (insertion order preserved). -/
def depsJson (m : List (String × String)) : Json :=
  .obj (m.map (fun e => (e.1, .str e.2)))

/-- JSON object for a lockfile entry, fields in assignment order, `none`
fields omitted (as `JSON.stringify` omits absent properties). -/
def lockPkgJson (lp : LockfilePackage) : Json :=
  .obj ([("version", .str lp.version), ("resolved", .str lp.resolved),
         ("integrity", .str lp.integrity)] ++
    (match lp.dependencies with
     | some m => [("dependencies", depsJson m)] | none => []) ++
    (match lp.peerDependencies with
     | some m => [("peerDependencies", depsJson m)] | none => []) ++
    (match lp.optionalDependencies with
     | some m => [("optionalDependencies", depsJson m)] | none => []) ++
    (match lp.bin with
     | some (.str s) => [("bin", .str s)]
     | some (.map m) => [("bin", depsJson m)]
     | none => []) ++
    (match lp.optional with | some b => [("optional", .bool b)] | none => []) ++
    (match lp.dev with | some b => [("dev", .bool b)] | none => []))

/-- JSON object for the whole lockfile, fields in the order of the source
literal; an absent `devDependencies` is omitted. -/
def lockfileJson (lf : Lockfile) : Json :=
  .obj ([("version", .num lf.version),
         ("packages", .obj (lf.packages.map (fun e => (e.1, lockPkgJson e.2)))),
         ("dependencies", depsJson lf.dependencies)] ++
    (match lf.devDependencies with
     | some m => [("devDependencies", depsJson m)] | none => []))

/-- The file content written by `LockfileManager.write`:
`JSON.stringify(lockfile, null, 2) + '\n'`. -/
def lockContent (packages : List (String × ResolvedPackage)) (pj : PackageJson) :
    String :=
  renderJson (lockfileJson (writeLock packages pj)) 0 ++ "\n"

/-- `atomicWrite(filePath, content)` (utils/fs.ts): ensure the parent
directory exists, write to `<filePath>.tmp.<Date.now()>`, then rename onto
the target. -/
def atomicWriteActions (dirExists : Bool) (now : Nat) (filePath : String)
    (content : String) : List FsAction :=
  let tmpPath := filePath ++ ".tmp." ++ toString now
  (if dirExists then [] else [.mkdirp (dirname filePath)]) ++
    [.writeText tmpPath content, .rename tmpPath filePath]

/-- The full effect of `LockfileManager.write` on `<cwd>/vex-lock.json`. -/
def writeLockfileActions (packages : List (String × ResolvedPackage))
    (pj : PackageJson) (cwd : String) (dirExists : Bool) (now : Nat) :
    List FsAction :=
  atomicWriteActions dirExists now (cwd ++ "/vex-lock.json")
    (lockContent packages pj)

/-- Explicit description of `compare a b < 0`, used to prove transitivity. -/
def semLt (a b : SemVer) : Prop :=
  a.major < b.major ∨
  (a.major = b.major ∧ a.minor < b.minor) ∨
  (a.major = b.major ∧ a.minor = b.minor ∧ a.patch < b.patch) ∨
  (a.major = b.major ∧ a.minor = b.minor ∧ a.patch = b.patch ∧
    a.prerelease.length > 0 ∧ b.prerelease.length = 0) ∨
  (a.major = b.major ∧ a.minor = b.minor ∧ a.patch = b.patch ∧
    a.prerelease.length > 0 ∧ b.prerelease.length > 0 ∧
    cmpPre a.prerelease b.prerelease < 0)

/-! ### Order-theoretic facts about `compare` -/

theorem cmpPreIds_refl (a : PreId) : cmpPreIds a a = 0 := by
  cases a <;> simp [cmpPreIds]

theorem cmpPreIds_flip (a b : PreId) : cmpPreIds b a = -cmpPreIds a b := by
  cases a with
  | num x =>
    cases b with
    | num y => simp only [cmpPreIds]; split_ifs <;> omega
    | str s => simp [cmpPreIds]
  | str x =>
    cases b with
    | num y => simp [cmpPreIds]
    | str y =>
      simp only [cmpPreIds]
      rcases lt_trichotomy x y with h | h | h
      · rw [if_neg (lt_asymm h), if_pos h, if_pos h]; norm_num
      · subst h; simp [lt_irrefl]
      · rw [if_pos h, if_neg (lt_asymm h), if_pos h]

theorem cmpPreIds_eq_zero {a b : PreId} (h : cmpPreIds a b = 0) : a = b := by
  cases a with
  | num x =>
    cases b with
    | num y =>
      have hxy : x = y := by
        by_cases hc : x = y
        · exact hc
        · exfalso
          simp only [cmpPreIds, if_pos (hc : x ≠ y)] at h
          split_ifs at h <;> omega
      rw [hxy]
    | str s => exact absurd h (by simp [cmpPreIds])
  | str x =>
    cases b with
    | num y => exact absurd h (by simp [cmpPreIds])
    | str y =>
      simp only [cmpPreIds] at h
      split_ifs at h with h1 h2
      · exact absurd h (by norm_num)
      · rw [le_antisymm (not_lt.mp h2) (not_lt.mp h1)]

theorem cmpPreIds_trans_lt {a b c : PreId}
    (h1 : cmpPreIds a b < 0) (h2 : cmpPreIds b c < 0) : cmpPreIds a c < 0 := by
  cases a with
  | num x =>
    cases c with
    | str _ => simp [cmpPreIds]
    | num z =>
      cases b with
      | str s => exact absurd h2 (by simp [cmpPreIds])
      | num y =>
        simp only [cmpPreIds] at h1 h2 ⊢
        split_ifs at h1 h2 ⊢ <;> omega
  | str x =>
    cases b with
    | num y => exact absurd h1 (by simp [cmpPreIds])
    | str y =>
      cases c with
      | num z => exact absurd h2 (by simp [cmpPreIds])
      | str z =>
        simp only [cmpPreIds] at h1 h2 ⊢
        have hxy : x < y := by
          by_cases hc : x < y
          · exact hc
          · rw [if_neg hc] at h1; split_ifs at h1 <;> omega
        have hyz : y < z := by
          by_cases hc : y < z
          · exact hc
          · rw [if_neg hc] at h2; split_ifs at h2 <;> omega
        rw [if_pos (lt_trans hxy hyz)]; omega

theorem cmpPre_refl (p : List PreId) : cmpPre p p = 0 := by
  induction p with
  | nil => simp [cmpPre]
  | cons a as ih => simp [cmpPre, cmpPreIds_refl, ih]

theorem cmpPre_flip (p q : List PreId) : cmpPre q p = -cmpPre p q := by
  induction p generalizing q with
  | nil => cases q <;> simp [cmpPre]
  | cons a as ih =>
    cases q with
    | nil => simp [cmpPre]
    | cons b bs =>
      show (if cmpPreIds b a ≠ 0 then cmpPreIds b a else cmpPre bs as) =
          -(if cmpPreIds a b ≠ 0 then cmpPreIds a b else cmpPre as bs)
      rw [cmpPreIds_flip a b]
      by_cases h : cmpPreIds a b = 0
      · rw [h]; simp [ih bs]
      · rw [if_pos (by omega : -cmpPreIds a b ≠ 0), if_pos h]

theorem cmpPre_eq_zero {p q : List PreId} (h : cmpPre p q = 0) : p = q := by
  induction p generalizing q with
  | nil => cases q with
    | nil => rfl
    | cons b bs => simp [cmpPre] at h
  | cons a as ih =>
    cases q with
    | nil => simp [cmpPre] at h
    | cons b bs =>
      simp only [cmpPre] at h
      by_cases hab : cmpPreIds a b = 0
      · simp only [hab, if_neg (by omega : ¬(0 : Int) ≠ 0)] at h
        rw [cmpPreIds_eq_zero hab, ih h]
      · simp only [if_pos hab] at h; exact absurd h hab

theorem cmpPre_trans_lt {p q r : List PreId}
    (h1 : cmpPre p q < 0) (h2 : cmpPre q r < 0) : cmpPre p r < 0 := by
  induction p generalizing q r with
  | nil =>
    cases r with
    | nil =>
      cases q with
      | nil => exact h2
      | cons b bs => simp [cmpPre] at h2
    | cons c cs => simp [cmpPre]
  | cons a as ih =>
    cases q with
    | nil => simp [cmpPre] at h1
    | cons b bs =>
      cases r with
      | nil => simp [cmpPre] at h2
      | cons c cs =>
        simp only [cmpPre] at h1 h2 ⊢
        by_cases hab : cmpPreIds a b = 0
        · have hab' := cmpPreIds_eq_zero hab
          subst hab'
          simp only [hab, if_neg (by omega : ¬(0 : Int) ≠ 0)] at h1
          by_cases hbc : cmpPreIds a c = 0
          · simp only [hbc, if_neg (by omega : ¬(0 : Int) ≠ 0)] at h2 ⊢
            exact ih h1 h2
          · simp only [if_pos hbc] at h2 ⊢; exact h2
        · simp only [if_pos hab] at h1
          by_cases hbc : cmpPreIds b c = 0
          · have hbc' := cmpPreIds_eq_zero hbc
            subst hbc'
            simp only [if_pos hab]; exact h1
          · simp only [if_pos hbc] at h2
            have := cmpPreIds_trans_lt h1 h2
            simp only [if_pos (by omega : cmpPreIds a c ≠ 0)]
            exact this

theorem compare_self (a : SemVer) : compare a a = 0 := by
  unfold compare
  rw [if_neg (by omega : ¬a.major ≠ a.major), if_neg (by omega : ¬a.minor ≠ a.minor),
    if_neg (by omega : ¬a.patch ≠ a.patch),
    if_neg (by omega : ¬(a.prerelease.length = 0 ∧ a.prerelease.length > 0)),
    if_neg (by omega : ¬(a.prerelease.length > 0 ∧ a.prerelease.length = 0))]
  exact cmpPre_refl _

set_option maxHeartbeats 1600000 in
theorem compare_flip (a b : SemVer) : compare b a = -compare a b := by
  unfold compare
  rw [cmpPre_flip b.prerelease a.prerelease]
  split_ifs <;> omega

set_option maxHeartbeats 1600000 in
/-- A zero comparison identifies the four ordering-relevant fields. -/
theorem compare_eq_zero {a b : SemVer} (h : compare a b = 0) :
    a.major = b.major ∧ a.minor = b.minor ∧ a.patch = b.patch ∧
      a.prerelease = b.prerelease := by
  unfold compare at h
  split_ifs at h <;> first
    | omega
    | (refine ⟨by omega, by omega, by omega, cmpPre_eq_zero h⟩)

theorem compare_congr_left {a b : SemVer} (c : SemVer)
    (h : a.major = b.major ∧ a.minor = b.minor ∧ a.patch = b.patch ∧
      a.prerelease = b.prerelease) : compare a c = compare b c := by
  unfold compare
  rw [h.1, h.2.1, h.2.2.1, h.2.2.2]

theorem compare_congr_right {a b : SemVer} (c : SemVer)
    (h : a.major = b.major ∧ a.minor = b.minor ∧ a.patch = b.patch ∧
      a.prerelease = b.prerelease) : compare c a = compare c b := by
  unfold compare
  rw [h.1, h.2.1, h.2.2.1, h.2.2.2]

set_option maxHeartbeats 800000 in
theorem compare_lt_iff (a b : SemVer) : compare a b < 0 ↔ semLt a b := by
  unfold compare semLt
  by_cases ha : a.prerelease = [] <;> by_cases hb : b.prerelease = []
  · simp only [ha, hb, cmpPre, List.length_nil]
    split_ifs <;> omega
  · have hbl : b.prerelease.length > 0 := List.length_pos.mpr hb
    have hal : a.prerelease.length = 0 := by simp [ha]
    split_ifs <;> omega
  · have hal : a.prerelease.length > 0 := List.length_pos.mpr ha
    have hbl : b.prerelease.length = 0 := by simp [hb]
    have hc : cmpPre a.prerelease b.prerelease = 1 := by
      rcases hq : a.prerelease with _ | ⟨x, xs⟩
      · exact absurd hq ha
      · rw [hb]; rfl
    split_ifs <;> omega
  · have hal : a.prerelease.length > 0 := List.length_pos.mpr ha
    have hbl : b.prerelease.length > 0 := List.length_pos.mpr hb
    split_ifs <;> omega

theorem compare_trans_lt {a b c : SemVer}
    (h1 : compare a b < 0) (h2 : compare b c < 0) : compare a c < 0 := by
  rw [compare_lt_iff] at h1 h2 ⊢
  unfold semLt at h1 h2 ⊢
  rcases h1 with h1 | ⟨e1, h1⟩ | ⟨e1, e2, h1⟩ | ⟨e1, e2, e3, hp1, hp2⟩ |
    ⟨e1, e2, e3, hp1, hp2, hcmp⟩ <;>
  rcases h2 with h2 | ⟨f1, h2⟩ | ⟨f1, f2, h2⟩ | ⟨f1, f2, f3, fp1, fp2⟩ |
    ⟨f1, f2, f3, fp1, fp2, fcmp⟩ <;>
  first
    | omega
    | (have hq := cmpPre_trans_lt hcmp fcmp; omega)

theorem compare_trans_le {a b c : SemVer}
    (h1 : compare a b ≤ 0) (h2 : compare b c ≤ 0) : compare a c ≤ 0 := by
  rcases lt_or_eq_of_le h1 with h1' | h1'
  · rcases lt_or_eq_of_le h2 with h2' | h2'
    · exact le_of_lt (compare_trans_lt h1' h2')
    · rw [← compare_congr_right a (compare_eq_zero h2')]
      exact h1
  · rw [← compare_congr_left c (compare_eq_zero h1')] at h2
    exact h2

theorem cmpStr_self (a : String) : cmpStr a a ≤ 0 := by
  unfold cmpStr
  rcases hp : parse a with _ | x <;> simp [hp, compare_self]

theorem cmpStr_flip {a b : String} (ha : valid a = true) (hb : valid b = true) :
    cmpStr b a = -cmpStr a b := by
  obtain ⟨x, hx⟩ := Option.isSome_iff_exists.mp ha
  obtain ⟨y, hy⟩ := Option.isSome_iff_exists.mp hb
  unfold cmpStr
  rw [hx, hy]
  exact compare_flip x y

theorem cmpStr_trans_le {a b c : String}
    (ha : valid a = true) (hb : valid b = true) (hc : valid c = true)
    (h1 : cmpStr a b ≤ 0) (h2 : cmpStr b c ≤ 0) : cmpStr a c ≤ 0 := by
  obtain ⟨x, hx⟩ := Option.isSome_iff_exists.mp ha
  obtain ⟨y, hy⟩ := Option.isSome_iff_exists.mp hb
  obtain ⟨z, hz⟩ := Option.isSome_iff_exists.mp hc
  unfold cmpStr at h1 h2 ⊢
  rw [hx, hy] at h1
  rw [hy, hz] at h2
  rw [hx, hz]
  exact compare_trans_le h1 h2

theorem satisfies_valid {v r : String} (h : satisfies v r = true) : valid v = true := by
  unfold satisfies at h
  unfold valid
  rcases hp : parse v with _ | x
  · rw [hp] at h; simp at h
  · simp [hp]

/-- The head of the descending sort of a list of valid versions dominates
every element under `compare`. -/
theorem rsort_head_dominates :
    ∀ l : List String, (∀ x ∈ l, valid x = true) →
      ∀ h t, rsort l = h :: t → ∀ x ∈ l, cmpStr x h ≤ 0 := by
  intro l
  induction l with
  | nil =>
    intro _ h t heq
    simp [rsort] at heq
  | cons a l ih =>
    intro hv h t heq
    have hva : valid a = true := hv a (List.mem_cons_self a l)
    have hvl : ∀ x ∈ l, valid x = true := fun x hx => hv x (List.mem_cons_of_mem a hx)
    have hperm : (rsort l).Perm l := List.perm_insertionSort _ _
    rcases hs : rsort l with _ | ⟨h', t'⟩
    · rw [hs] at hperm
      have hl : l = [] := hperm.symm.eq_nil
      subst hl
      have : rsort [a] = [a] := rfl
      rw [this] at heq
      obtain ⟨rfl, rfl⟩ : h = a ∧ t = [] := by
        constructor <;> injection heq <;> simp_all
      intro x hx
      rcases List.mem_singleton.mp hx with rfl
      exact cmpStr_self x
    · have hdom := ih hvl h' t' hs
      have hmemh' : h' ∈ l := hperm.mem_iff.mp (hs ▸ List.mem_cons_self h' t')
      have hvh' : valid h' = true := hvl h' hmemh'
      have hunf : rsort (a :: l) = List.orderedInsert rsortRel a (rsort l) := rfl
      rw [hunf, hs] at heq
      by_cases hr : rsortRel a h'
      · rw [List.orderedInsert_of_le _ _ hr] at heq
        obtain ⟨rfl, -⟩ : h = a ∧ t = h' :: t' := by
          constructor <;> injection heq <;> simp_all
        intro x hx
        rcases List.mem_cons.mp hx with rfl | hxl
        · exact cmpStr_self x
        · exact cmpStr_trans_le (hvl x hxl) hvh' hva (hdom x hxl) hr
      · have hoi : List.orderedInsert rsortRel a (h' :: t') =
            if rsortRel a h' then a :: h' :: t'
            else h' :: List.orderedInsert rsortRel a t' := rfl
        rw [hoi, if_neg hr] at heq
        obtain ⟨rfl, -⟩ : h = h' ∧ t = List.orderedInsert rsortRel a t' := by
          constructor <;> injection heq <;> simp_all
        intro x hx
        rcases List.mem_cons.mp hx with rfl | hxl
        · have hpos : 0 < cmpStr h x := by
            unfold rsortRel at hr
            omega
          have := cmpStr_flip hva hvh'
          omega
        · exact hdom x hxl

/-! ## Claim theorems for the version algebra -/

/-- C3 (code_bug evaluation): `satisfies("1.2.3-rc.1", ">=1.0.0-rc.0")` returns
`true` although the only comparator of the range mentions a prerelease on the
triple `(1,0,0)`, not on `(1,2,3)`: the implementation admits a prerelease
version as soon as some comparator of the satisfied clause carries any
prerelease, contradicting the claimed (and comment-documented) same-triple
policy. -/
theorem c3_prerelease_any_comparator_admits :
    satisfies "1.2.3-rc.1" ">=1.0.0-rc.0" = true ∧
    (parseRange ">=1.0.0-rc.0").set =
      [[⟨Op.ge, ⟨1, 0, 0, [.str "rc", .num 0], [], "1.0.0-rc.0"⟩⟩]] ∧
    (parse "1.2.3-rc.1").map (fun s => (s.major, s.minor, s.patch)) =
      some (1, 2, 3) := by
  refine ⟨by decide, by decide, by decide⟩

/-- C4 counterexample: the range `"garbage"` consists of a single invalid
token, yet `satisfies("0.0.0", "garbage")` is `true` — the range does not
match nothing. -/
theorem c4_invalid_token_matches :
    satisfies "0.0.0" "garbage" = true := by decide

/-- C4 amended: an unrecognized token is not discarded but zero-filled by the
loose parser, so the range `"garbage"` behaves as the comparator `=0.0.0`:
it is satisfied exactly by the stable versions parsing to `0.0.0` (and no
error is raised — `satisfies` is total). -/
theorem c4_invalid_token_zero_filled (v : String) :
    satisfies v "garbage" = true ↔
      ∃ sv, parse v = some sv ∧ sv.major = 0 ∧ sv.minor = 0 ∧ sv.patch = 0 ∧
        sv.prerelease = [] := by
  have hr : parseRange "garbage" = ⟨[[⟨Op.eq, ⟨0, 0, 0, [], [], "garbage"⟩⟩]]⟩ := by
    decide
  unfold satisfies
  rcases hp : parse v with _ | sv
  · simp
  · rw [hr]
    simp only [List.any_cons, List.any_nil, Bool.or_false, Option.some.injEq]
    constructor
    · intro h
      have h0 : compare sv ⟨0, 0, 0, [], [], "garbage"⟩ = 0 := by
        by_contra hne
        rw [clauseAdmits] at h
        simp [testComparator, hne] at h
      have hf := compare_eq_zero h0
      exact ⟨sv, rfl, hf.1, hf.2.1, hf.2.2.1, hf.2.2.2⟩
    · rintro ⟨sv', hsv', h1, h2, h3, h4⟩
      subst hsv'
      have hcore : sv.major = (⟨0, 0, 0, [], [], "garbage"⟩ : SemVer).major ∧
          sv.minor = (⟨0, 0, 0, [], [], "garbage"⟩ : SemVer).minor ∧
          sv.patch = (⟨0, 0, 0, [], [], "garbage"⟩ : SemVer).patch ∧
          sv.prerelease = (⟨0, 0, 0, [], [], "garbage"⟩ : SemVer).prerelease :=
        ⟨h1, h2, h3, h4⟩
      have h0 : compare sv ⟨0, 0, 0, [], [], "garbage"⟩ = 0 := by
        rw [compare_congr_left ⟨0, 0, 0, [], [], "garbage"⟩ hcore]
        exact compare_self _
      rw [clauseAdmits]
      simp [testComparator, h0, h4]

/-- C5 counterexample: the prerelease version `1.2.3-rc.1` satisfies the
range `"*"`, so `*` is not restricted to stable versions. -/
theorem c5_star_admits_prerelease :
    satisfies "1.2.3-rc.1" "*" = true ∧
    (parse "1.2.3-rc.1").map (fun s => s.prerelease) =
      some [.str "rc", .num 1] := by
  refine ⟨by decide, by decide⟩

/-- C5 amended: each of the ranges `*`, the empty string and `latest` is
satisfied by a version exactly when the version is valid — prerelease
versions included (the empty comparator set returns before the prerelease
policy is consulted). -/
theorem c5_wildcard_iff_valid (v : String) :
    satisfies v "*" = valid v ∧ satisfies v "" = valid v ∧
      satisfies v "latest" = valid v := by
  have h1 : parseRange "*" = ⟨[[]]⟩ := by decide
  have h2 : parseRange "" = ⟨[[]]⟩ := by decide
  have h3 : parseRange "latest" = ⟨[[]]⟩ := by decide
  refine ⟨?_, ?_, ?_⟩ <;>
    · unfold satisfies valid
      first
        | rw [h1]
        | rw [h2]
        | rw [h3]
      rcases hp : parse v with _ | sv <;> simp [clauseAdmits]

/-- C6: `maxSatisfying(V, R)` is `none` exactly when no element of `V`
satisfies `R`, and any returned version is a satisfying element of `V` that
every satisfying element compares at or below (`compare v m <= 0`), i.e. a
greatest element of the satisfying set under `compare`. -/
theorem c6_maxSatisfying_greatest (V : List String) (R : String) :
    (maxSatisfying V R = none ↔ V.filter (fun v => satisfies v R) = []) ∧
    (∀ m, maxSatisfying V R = some m →
      m ∈ V.filter (fun v => satisfies v R) ∧
      ∀ v ∈ V.filter (fun v => satisfies v R), cmpStr v m ≤ 0) := by
  have hvalid : ∀ x ∈ V.filter (fun v => satisfies v R), valid x = true :=
    fun x hx => satisfies_valid (List.mem_filter.mp hx).2
  have hfil : (V.filter (fun v => satisfies v R)).filter valid
      = V.filter (fun v => satisfies v R) := List.filter_eq_self.mpr hvalid
  have hperm : (rsort (V.filter (fun v => satisfies v R))).Perm
      (V.filter (fun v => satisfies v R)) := List.perm_insertionSort _ _
  simp only [maxSatisfying, maxVersion]
  rw [hfil]
  rcases hs : rsort (V.filter (fun v => satisfies v R)) with _ | ⟨h, t⟩
  · rw [hs] at hperm
    have hnil : V.filter (fun v => satisfies v R) = [] := hperm.symm.eq_nil
    constructor
    · simp [hnil]
    · intro m hm
      simp at hm
  · rw [hs] at hperm
    have hne : V.filter (fun v => satisfies v R) ≠ [] := by
      intro he
      rw [he] at hperm
      have := hperm.eq_nil
      simp at this
    constructor
    · constructor
      · intro hc; simp at hc
      · intro hc; exact absurd hc hne
    · intro m hm
      obtain rfl : h = m := by simpa using hm
      refine ⟨hperm.mem_iff.mp (List.mem_cons_self h t), ?_⟩
      exact rsort_head_dominates _ hvalid h t hs

/-- Witness for C6 at the spec scenario
`maxSatisfying(["1.0.0","1.2.0","1.2.5","2.0.0"], "~1.2.0") = "1.2.5"`. -/
theorem c6_maxSatisfying_greatest_witness :
    "1.2.5" ∈ ["1.0.0", "1.2.0", "1.2.5", "2.0.0"].filter
        (fun v => satisfies v "~1.2.0") ∧
    ∀ v ∈ ["1.0.0", "1.2.0", "1.2.5", "2.0.0"].filter
        (fun v => satisfies v "~1.2.0"), cmpStr v "1.2.5" ≤ 0 :=
  (c6_maxSatisfying_greatest ["1.0.0", "1.2.0", "1.2.5", "2.0.0"] "~1.2.0").2
    "1.2.5" (by decide)

/-! ## Hash lemmas and C10 -/

theorem string_data_append (s t : String) : (s ++ t).data = s.data ++ t.data := by
  cases s; cases t; rfl

theorem b64_length : ∀ l : List Nat, (b64 l).length = 4 * ((l.length + 2) / 3)
  | [] => by simp [b64]
  | [a] => by simp [b64]
  | [a, b] => by simp [b64]
  | a :: b :: c :: rest => by
    have ih := b64_length rest
    simp only [b64, List.length_cons]
    omega

theorem splitOnChar_not_mem {c : Char} :
    ∀ l : List Char, c ∉ l → splitOnChar c l = [l]
  | [], _ => rfl
  | x :: xs, h => by
    have hx : ¬x = c := fun he => h (he ▸ List.mem_cons_self x xs)
    have ih := splitOnChar_not_mem xs (fun hm => h (List.mem_cons_of_mem x hm))
    simp [splitOnChar, ih, hx]

theorem splitOnChar_sep {c : Char} (xs ys : List Char)
    (hx : c ∉ xs) (hy : c ∉ ys) :
    splitOnChar c (xs ++ c :: ys) = [xs, ys] := by
  induction xs with
  | nil => simp [splitOnChar, splitOnChar_not_mem ys hy]
  | cons a as ih =>
    have ha : ¬a = c := fun he => hx (he ▸ List.mem_cons_self a as)
    have ih2 := ih (fun hm => hx (List.mem_cons_of_mem a hm))
    simp [splitOnChar, ih2, ha]

/-- C10: when metadata carries no `dist.integrity`, the resolver synthesizes
`sha1-<hex shasum>`; `verifyIntegrity` then compares a 28-character base64
sha1 digest against the 40-character hexadecimal shasum, so it returns
`false` for every byte sequence, and every fresh (store-miss, cache-miss,
online) fetch of such a package fails with an integrity error. -/
theorem c10_synthesized_sha1_never_verifies
    (hash : String → List Nat → List Nat) (data : List Nat) (shasum : String)
    (hlen : (hash "sha1" data).length = 20)
    (hhexlen : shasum.length = 40)
    (hhex : ∀ ch ∈ shasum.data, isHexDigit ch = true) :
    verifyIntegrity hash data (resolveIntegrity none shasum) = false ∧
    (∀ (env : FetchEnv) (pkg : ResolvedPackage),
      env.hash = hash → env.download pkg.resolved = data →
      pkg.integrity = resolveIntegrity none shasum →
      storeEntryValid env (getStorePath env pkg) = false →
      env.existsFs (getTarballPath env pkg) = false →
      env.offline = false →
      fetchPackageCore env pkg = .error .integrityMismatch) := by
  have hdash : '-' ∉ shasum.data := by
    intro hm
    have hd := hhex '-' hm
    simp [isHexDigit] at hd
  have hres : resolveIntegrity none shasum = "sha1-" ++ shasum := rfl
  have hdata : ("sha1-" ++ shasum).data = ['s', 'h', 'a', '1'] ++ '-' :: shasum.data := by
    rw [string_data_append]
    rfl
  have hsplit : splitOnChar '-' ("sha1-" ++ shasum).data =
      [['s', 'h', 'a', '1'], shasum.data] := by
    rw [hdata]
    exact splitOnChar_sep _ _ (by decide) hdash
  have hne : (String.mk (b64 (hash (String.mk ['s', 'h', 'a', '1']) data)) ==
      String.mk shasum.data) = false := by
    apply beq_eq_false_iff_ne.mpr
    intro he
    have hlen2 : (b64 (hash (String.mk ['s', 'h', 'a', '1']) data)).length =
        shasum.data.length := by
      have := congrArg String.data he
      simpa using congrArg List.length this
    have hmk : (String.mk ['s', 'h', 'a', '1'] : String) = "sha1" := rfl
    rw [hmk] at hlen2
    rw [b64_length, hlen] at hlen2
    have hsl : shasum.data.length = 40 := hhexlen
    omega
  have hverify : verifyIntegrity hash data (resolveIntegrity none shasum) = false := by
    rw [hres]
    unfold verifyIntegrity
    rw [hsplit]
    dsimp only
    split_ifs with hc
    · exact hne
    · rfl
  refine ⟨hverify, ?_⟩
  intro env pkg hh hd hi hsv hcache hoff
  have hine : resolveIntegrity none shasum ≠ "" := by
    rw [hres]
    intro he
    have := congrArg String.data he
    rw [string_data_append] at this
    simp at this
  simp only [fetchPackageCore, hsv, Bool.false_eq_true, if_false, hcache, hoff]
  rw [hd, hh, hi, hverify]
  simp [hine]

/-- Witness for C10 at a concrete digest function and an all-zero shasum. -/
theorem c10_synthesized_sha1_never_verifies_witness :
    verifyIntegrity (fun _ _ => List.replicate 20 0) [7]
      (resolveIntegrity none (String.mk (List.replicate 40 '0'))) = false :=
  (c10_synthesized_sha1_never_verifies (fun _ _ => List.replicate 20 0) [7]
    (String.mk (List.replicate 40 '0')) (by decide) (by decide)
    (by decide)).1

/-! ## Fetcher claims C1 and C2 -/

/-- C1 counterexample: the store entry is invalid but the tarball cache
holds bytes `[1, 2, 3]` that do NOT verify against the declared integrity
`sha512-AAAA`; `fetchPackage` nevertheless succeeds and extracts exactly
those bytes into the store — no verification happens on the cached path. -/
theorem c1_cached_bytes_committed_unverified :
    fetchPackage
      { existsFs := fun p => p == "/cache/a-1.0.0.tgz",
        readFile := fun _ => [1, 2, 3],
        download := fun _ => [4, 5, 6],
        hash := fun _ _ => [9],
        contentHash := fun _ => "0123456789abcdef",
        storeDir := "/store", cacheDir := "/cache", offline := false }
      ⟨"a", "1.0.0", "https://r/a.tgz", "sha512-AAAA", [], [], [], [], false, false⟩ =
      .ok (some ⟨"a", "1.0.0", "/store/a@1.0.0_01234567", false⟩,
        [.rmrf "/store/a@1.0.0_01234567", .mkdirp "/store/a@1.0.0_01234567",
         .extractTarball "/store/a@1.0.0_01234567" [1, 2, 3],
         .writeMeta "/store/a@1.0.0_01234567"]) ∧
    verifyIntegrity (fun _ _ => [9]) [1, 2, 3] "sha512-AAAA" = false := by
  exact ⟨rfl, by decide⟩

/-- C1 amended: integrity is verified only for freshly downloaded tarballs
with a non-empty integrity string — there a mismatch fails the fetch before
anything is written; a tarball read back from the cache is extracted into
the store without any verification. -/
theorem c1_integrity_checked_on_fresh_download_only :
    (∀ (env : FetchEnv) (pkg : ResolvedPackage),
      storeEntryValid env (getStorePath env pkg) = false →
      env.existsFs (getTarballPath env pkg) = false →
      env.offline = false →
      pkg.integrity ≠ "" →
      verifyIntegrity env.hash (env.download pkg.resolved) pkg.integrity = false →
      fetchPackageCore env pkg = .error .integrityMismatch) ∧
    (∀ (env : FetchEnv) (pkg : ResolvedPackage),
      storeEntryValid env (getStorePath env pkg) = false →
      env.existsFs (getTarballPath env pkg) = true →
      fetchPackageCore env pkg =
        .ok (⟨pkg.name, pkg.version, getStorePath env pkg, false⟩,
          [.rmrf (getStorePath env pkg), .mkdirp (getStorePath env pkg),
           .extractTarball (getStorePath env pkg)
             (env.readFile (getTarballPath env pkg)),
           .writeMeta (getStorePath env pkg)])) := by
  constructor
  · intro env pkg hsv hcache hoff hine hver
    simp only [fetchPackageCore, hsv, Bool.false_eq_true, if_false, hcache, hoff]
    rw [hver]
    simp [hine]
  · intro env pkg hsv hcache
    simp only [fetchPackageCore, hsv, Bool.false_eq_true, if_false, hcache, if_true]
    simp

/-- Witness for the C1 amended theorem: a fresh download whose bytes do not
match the declared integrity fails with an integrity error. -/
theorem c1_integrity_checked_on_fresh_download_only_witness :
    fetchPackageCore
      { existsFs := fun _ => false,
        readFile := fun _ => [],
        download := fun _ => [1, 2, 3],
        hash := fun _ _ => [9],
        contentHash := fun _ => "0123456789abcdef",
        storeDir := "/store", cacheDir := "/cache", offline := false }
      ⟨"a", "1.0.0", "https://r/a.tgz", "sha512-AAAA", [], [], [], [], false, false⟩ =
      .error .integrityMismatch :=
  c1_integrity_checked_on_fresh_download_only.1
    { existsFs := fun _ => false,
      readFile := fun _ => [],
      download := fun _ => [1, 2, 3],
      hash := fun _ _ => [9],
      contentHash := fun _ => "0123456789abcdef",
      storeDir := "/store", cacheDir := "/cache", offline := false }
    ⟨"a", "1.0.0", "https://r/a.tgz", "sha512-AAAA", [], [], [], [], false, false⟩
    (by decide) (by decide) (by decide) (by decide) (by decide)

/-- C2 counterexample: a successful fresh fetch performs no rename at all and
extracts directly into the final store path — there is no temporary
workspace followed by an atomic rename.  The declared integrity `sha512-AQID`
does match the downloaded bytes `[1, 2, 3]`, so the fetch succeeds. -/
theorem c2_no_temp_workspace_no_rename :
    fetchPackage
      { existsFs := fun _ => false,
        readFile := fun _ => [],
        download := fun _ => [1, 2, 3],
        hash := fun _ _ => [1, 2, 3],
        contentHash := fun _ => "0123456789abcdef",
        storeDir := "/store", cacheDir := "/cache", offline := false }
      ⟨"a", "1.0.0", "https://r/a.tgz", "sha512-AQID", [], [], [], [], false, false⟩ =
      .ok (some ⟨"a", "1.0.0", "/store/a@1.0.0_01234567", false⟩,
        [.mkdirp "/cache", .writeFile "/cache/a-1.0.0.tgz" [1, 2, 3],
         .rmrf "/store/a@1.0.0_01234567", .mkdirp "/store/a@1.0.0_01234567",
         .extractTarball "/store/a@1.0.0_01234567" [1, 2, 3],
         .writeMeta "/store/a@1.0.0_01234567"]) ∧
    ([FsAction.mkdirp "/cache", .writeFile "/cache/a-1.0.0.tgz" [1, 2, 3],
      .rmrf "/store/a@1.0.0_01234567", .mkdirp "/store/a@1.0.0_01234567",
      .extractTarball "/store/a@1.0.0_01234567" [1, 2, 3],
      .writeMeta "/store/a@1.0.0_01234567"]).all (fun a => !a.isRen) = true := by
  exact ⟨rfl, by decide⟩

/-- C2 amended: any fetch not served from a valid store entry removes the
previous entry, recreates the store path, extracts the tarball directly into
the final store path (no rename anywhere in the action trace) and writes the
`.vex-meta.json` sidecar last. -/
theorem c2_extract_in_place_meta_last
    (env : FetchEnv) (pkg : ResolvedPackage) (r : FetchResult)
    (acts : List FsAction)
    (hok : fetchPackageCore env pkg = .ok (r, acts))
    (hfresh : r.fromCache = false) :
    (∃ pre tarball,
      acts = pre ++ [.rmrf (getStorePath env pkg), .mkdirp (getStorePath env pkg),
        .extractTarball (getStorePath env pkg) tarball,
        .writeMeta (getStorePath env pkg)]) ∧
    ∀ a ∈ acts, a.isRen = false := by
  simp only [fetchPackageCore] at hok
  split_ifs at hok with h1 h2 h3 h4
  · simp only [Except.ok.injEq, Prod.mk.injEq] at hok
    obtain ⟨hr, ha⟩ := hok
    rw [← hr] at hfresh
    simp at hfresh
  · simp only [Except.ok.injEq, Prod.mk.injEq] at hok
    obtain ⟨hr, ha⟩ := hok
    subst hr
    subst ha
    refine ⟨⟨[], env.readFile (getTarballPath env pkg), by simp⟩, ?_⟩
    intro a hain
    simp at hain
    rcases hain with rfl | rfl | rfl | rfl <;> rfl
  · simp only [Except.ok.injEq, Prod.mk.injEq] at hok
    obtain ⟨hr, ha⟩ := hok
    subst hr
    subst ha
    refine ⟨⟨[.mkdirp (dirname (getTarballPath env pkg)),
      .writeFile (getTarballPath env pkg) (env.download pkg.resolved)],
      env.download pkg.resolved, by simp⟩, ?_⟩
    intro a hain
    simp at hain
    rcases hain with rfl | rfl | rfl | rfl | rfl | rfl <;> rfl

/-- Witness for the C2 amended theorem at a concrete cache-hit fetch. -/
theorem c2_extract_in_place_meta_last_witness :
    (∃ pre tarball,
      [FsAction.rmrf "/store/b@1.0.0_01234567", .mkdirp "/store/b@1.0.0_01234567",
       .extractTarball "/store/b@1.0.0_01234567" [5],
       .writeMeta "/store/b@1.0.0_01234567"] =
      pre ++ [FsAction.rmrf "/store/b@1.0.0_01234567",
        .mkdirp "/store/b@1.0.0_01234567",
        .extractTarball "/store/b@1.0.0_01234567" tarball,
        .writeMeta "/store/b@1.0.0_01234567"]) ∧
    ∀ a ∈ [FsAction.rmrf "/store/b@1.0.0_01234567",
      .mkdirp "/store/b@1.0.0_01234567",
      .extractTarball "/store/b@1.0.0_01234567" [5],
      .writeMeta "/store/b@1.0.0_01234567"], a.isRen = false := by
  have h := c2_extract_in_place_meta_last
    { existsFs := fun p => p == "/cache/b-1.0.0.tgz",
      readFile := fun _ => [5],
      download := fun _ => [],
      hash := fun _ _ => [9],
      contentHash := fun _ => "0123456789abcdef",
      storeDir := "/store", cacheDir := "/cache", offline := false }
    ⟨"b", "1.0.0", "https://r/b.tgz", "sha512-AAAA", [], [], [], [], false, false⟩
    ⟨"b", "1.0.0", "/store/b@1.0.0_01234567", false⟩
    [.rmrf "/store/b@1.0.0_01234567", .mkdirp "/store/b@1.0.0_01234567",
     .extractTarball "/store/b@1.0.0_01234567" [5],
     .writeMeta "/store/b@1.0.0_01234567"]
    rfl (by decide)
  exact h

/-! ## Linker hoisting lemmas and C9 -/

theorem dedupFirstGo_mem (x : String) :
    ∀ (l seen : List String), x ∈ dedupFirstGo seen l ↔ x ∈ l ∧ x ∉ seen := by
  intro l
  induction l with
  | nil => intro seen; simp [dedupFirstGo]
  | cons v rest ih =>
    intro seen
    by_cases hv : v ∈ seen
    · simp only [dedupFirstGo, if_pos hv, ih seen, List.mem_cons]
      constructor
      · rintro ⟨hm, hs⟩
        exact ⟨Or.inr hm, hs⟩
      · rintro ⟨h | h, hs⟩
        · exact absurd (h ▸ hv) hs
        · exact ⟨h, hs⟩
    · simp only [dedupFirstGo, if_neg hv, List.mem_cons, ih (v :: seen)]
      constructor
      · rintro (rfl | ⟨hm, hs⟩)
        · exact ⟨Or.inl rfl, hv⟩
        · exact ⟨Or.inr hm, fun hx => hs (Or.inr hx)⟩
      · rintro ⟨rfl | hm, hs⟩
        · exact Or.inl rfl
        · by_cases hxv : x = v
          · exact Or.inl hxv
          · refine Or.inr ⟨hm, fun hx => ?_⟩
            rcases hx with h | h
            · exact hxv h
            · exact hs h

theorem dedupFirst_mem (x : String) (l : List String) :
    x ∈ dedupFirst l ↔ x ∈ l := by
  rw [dedupFirst, dedupFirstGo_mem]
  simp

theorem mostCommonGo_spec (all : List String) :
    ∀ (l : List String) (mc : Nat) (best : String),
      (mostCommonGo all l mc best = best ∧ ∀ v ∈ l, all.count v ≤ mc) ∨
      (∃ pre post, l = pre ++ mostCommonGo all l mc best :: post ∧
        all.count (mostCommonGo all l mc best) > mc ∧
        (∀ p ∈ pre, all.count p < all.count (mostCommonGo all l mc best)) ∧
        (∀ q ∈ post, all.count q ≤ all.count (mostCommonGo all l mc best))) := by
  intro l
  induction l with
  | nil =>
    intro mc best
    left
    exact ⟨rfl, by simp⟩
  | cons v rest ih =>
    intro mc best
    by_cases hc : all.count v > mc
    · simp only [mostCommonGo]
      rw [if_pos hc]
      rcases ih (all.count v) v with ⟨heq, hall⟩ | ⟨pre, post, hsplit, hgt, hpre, hpost⟩
      · right
        refine ⟨[], rest, ?_, ?_, by simp, ?_⟩
        · rw [heq]; simp
        · rw [heq]; exact hc
        · intro q hq; rw [heq]; exact hall q hq
      · right
        refine ⟨v :: pre, post, ?_, ?_, ?_, hpost⟩
        · rw [List.cons_append, ← hsplit]
        · exact lt_trans hc hgt
        · intro p hp
          rcases List.mem_cons.mp hp with rfl | hp2
          · exact hgt
          · exact hpre p hp2
    · simp only [mostCommonGo]
      rw [if_neg hc]
      rcases ih mc best with ⟨heq, hall⟩ | ⟨pre, post, hsplit, hgt, hpre, hpost⟩
      · left
        refine ⟨heq, fun q hq => ?_⟩
        rcases List.mem_cons.mp hq with rfl | hq2
        · omega
        · exact hall q hq2
      · right
        refine ⟨v :: pre, post, ?_, hgt, ?_, hpost⟩
        · rw [List.cons_append, ← hsplit]
        · intro p hp
          rcases List.mem_cons.mp hp with rfl | hp2
          · omega
          · exact hpre p hp2

theorem mostCommon_spec (vs : List String) (hne : vs ≠ []) :
    mostCommon vs ∈ vs ∧
    (∀ v ∈ vs, vs.count v ≤ vs.count (mostCommon vs)) ∧
    (∃ pre post, dedupFirst vs = pre ++ mostCommon vs :: post ∧
      ∀ p ∈ pre, vs.count p < vs.count (mostCommon vs)) := by
  rcases mostCommonGo_spec vs (dedupFirst vs) 0 "" with
    ⟨heq, hall⟩ | ⟨pre, post, hsplit, hgt, hpre, hpost⟩
  · exfalso
    rcases hv : vs with _ | ⟨v, rest⟩
    · exact hne hv
    · have hvmem : v ∈ dedupFirst vs := by
        rw [dedupFirst_mem, hv]
        exact List.mem_cons_self v rest
      have hle := hall v hvmem
      have hpos : 0 < vs.count v := List.count_pos_iff_mem.mpr (by
        rw [hv]; exact List.mem_cons_self v rest)
      omega
  · have hceq : mostCommon vs = mostCommonGo vs (dedupFirst vs) 0 "" := rfl
    rw [← hceq] at hsplit hgt hpre hpost
    have hcmem : mostCommon vs ∈ dedupFirst vs := by
      rw [hsplit]
      exact List.mem_append_right _ (List.mem_cons_self _ _)
    have hcvs : mostCommon vs ∈ vs := (dedupFirst_mem _ _).mp hcmem
    refine ⟨hcvs, ?_, pre, post, hsplit, hpre⟩
    intro v hvv
    have hvd : v ∈ dedupFirst vs := (dedupFirst_mem v vs).mpr hvv
    rw [hsplit] at hvd
    rcases List.mem_append.mp hvd with hp | hcp
    · exact le_of_lt (hpre v hp)
    · rcases List.mem_cons.mp hcp with rfl | hq
      · exact le_refl _
      · exact hpost v hq

/-- What membership in the top-level link set means. -/
theorem topLevelLinked_mem {hints : List (String × String)}
    {packages : List (String × ResolvedPackage)} {e : String × ResolvedPackage}
    (he : e ∈ topLevelLinked hints packages) :
    e.1 = e.2.name ∧ hoistChoice hints packages e.1 = some e.2.version := by
  unfold topLevelLinked at he
  rcases List.mem_map.mp he with ⟨orig, horig, hmap⟩
  have hcond := List.mem_filter.mp horig
  have hchoice : hoistChoice hints packages orig.2.name = some orig.2.version :=
    of_decide_eq_true hcond.2
  rw [← hmap]
  exact ⟨rfl, hchoice⟩

/-- C9 counterexample: with the hint map `x -> 9.9.9` and a flat set whose
only `x` is `1.0.0`, the Linker hoists `1.0.0` — the direct-dependency hint
is NOT chosen when that version is absent from the flat set, and a package
with a version different from the hint is placed at the top level. -/
theorem c9_hint_absent_from_flat_ignored :
    hoistChoice [("x", "9.9.9")]
      [("x@1.0.0", ⟨"x", "1.0.0", "", "", [], [], [], [], false, false⟩)] "x" =
      some "1.0.0" ∧
    ("1.0.0" : String) ≠ "9.9.9" ∧
    topLevelLinked [("x", "9.9.9")]
      [("x@1.0.0", ⟨"x", "1.0.0", "", "", [], [], [], [], false, false⟩)] =
      [("x", ⟨"x", "1.0.0", "", "", [], [], [], [], false, false⟩)] := by
  exact ⟨rfl, by decide, rfl⟩

/-- C9 amended: the hoisted choice is the direct-dependency hint only when
the hint is non-empty and that exact version occurs in the flat set for that
name; otherwise it is the version with the greatest multiplicity, ties broken
by the first encountered; only packages whose version equals the choice are
placed at the top level, and at most one version per name appears there. -/
theorem c9_hoisting_policy :
    (∀ hints packages name d, lookupA name hints = some d → d ≠ "" →
      d ∈ versionsOf packages name →
      hoistChoice hints packages name = some d) ∧
    (∀ hints packages name,
      (∀ d, lookupA name hints = some d → d = "" ∨ d ∉ versionsOf packages name) →
      versionsOf packages name ≠ [] → "" ∉ versionsOf packages name →
      ∃ c pre post, hoistChoice hints packages name = some c ∧
        dedupFirst (versionsOf packages name) = pre ++ c :: post ∧
        (∀ v ∈ versionsOf packages name,
          (versionsOf packages name).count v ≤ (versionsOf packages name).count c) ∧
        (∀ p ∈ pre, (versionsOf packages name).count p <
          (versionsOf packages name).count c)) ∧
    (∀ hints packages (e : String × ResolvedPackage),
      e ∈ topLevelLinked hints packages →
      e.1 = e.2.name ∧ hoistChoice hints packages e.1 = some e.2.version) ∧
    (∀ hints packages (e1 e2 : String × ResolvedPackage),
      e1 ∈ topLevelLinked hints packages →
      e2 ∈ topLevelLinked hints packages → e1.1 = e2.1 →
      e1.2.version = e2.2.version) := by
  refine ⟨?_, ?_, fun _ _ _ he => topLevelLinked_mem he, ?_⟩
  · intro hints packages name d hlook hne hmem
    have hvne : ¬((versionsOf packages name).isEmpty = true) := by
      simp only [List.isEmpty_iff]
      intro h
      rw [h] at hmem
      exact absurd hmem (List.not_mem_nil d)
    simp only [hoistChoice, hlook]
    rw [if_neg hvne, if_pos ⟨hne, hmem⟩]
  · intro hints packages name hbad hne hnb
    have hvne : ¬((versionsOf packages name).isEmpty = true) := by
      simp only [List.isEmpty_iff]; exact hne
    obtain ⟨hcmem, hmax, pre, post, hsplit, hpre⟩ := mostCommon_spec _ hne
    have hcne : mostCommon (versionsOf packages name) ≠ "" := by
      intro h
      rw [h] at hcmem
      exact hnb hcmem
    have hmc : (if mostCommon (versionsOf packages name) ≠ "" then
        some (mostCommon (versionsOf packages name)) else none) =
        some (mostCommon (versionsOf packages name)) := if_pos hcne
    refine ⟨mostCommon (versionsOf packages name), pre, post, ?_, hsplit, hmax, hpre⟩
    simp only [hoistChoice]
    rw [if_neg hvne]
    rcases hl : lookupA name hints with _ | d
    · dsimp only
      exact hmc
    · dsimp only
      rcases hbad d hl with hd | hd
      · rw [if_neg (show ¬(d ≠ "" ∧ d ∈ versionsOf packages name) from
          fun hcon => hcon.1 hd)]
        exact hmc
      · rw [if_neg (show ¬(d ≠ "" ∧ d ∈ versionsOf packages name) from
          fun hcon => hd hcon.2)]
        exact hmc
  · intro hints packages e1 e2 h1 h2 hname
    obtain ⟨hn1, hc1⟩ := topLevelLinked_mem h1
    obtain ⟨hn2, hc2⟩ := topLevelLinked_mem h2
    rw [hname] at hc1
    rw [hc1] at hc2
    injection hc2

/-- Witness for the C9 amended theorem: a hint whose version occurs in the
flat set is honored. -/
theorem c9_hoisting_policy_witness :
    hoistChoice [("x", "1.0.0")]
      [("x@1.0.0", ⟨"x", "1.0.0", "", "", [], [], [], [], false, false⟩),
       ("x@2.0.0", ⟨"x", "2.0.0", "", "", [], [], [], [], false, false⟩)] "x" =
      some "1.0.0" :=
  c9_hoisting_policy.1 [("x", "1.0.0")]
    [("x@1.0.0", ⟨"x", "1.0.0", "", "", [], [], [], [], false, false⟩),
     ("x@2.0.0", ⟨"x", "2.0.0", "", "", [], [], [], [], false, false⟩)] "x" "1.0.0"
    rfl (by decide) (by decide)

/-! ## Lockfile lemmas and C7, C8 -/

theorem lookupA_map {α β : Type} (g : String → α → β) (k : String) :
    ∀ l : List (String × α),
      lookupA k (l.map (fun e => (e.1, g e.1 e.2))) = (lookupA k l).map (g k)
  | [] => rfl
  | e :: rest => by
    simp only [List.map_cons, lookupA]
    by_cases h : k = e.1
    · subst h
      simp
    · simp only [if_neg h]
      exact lookupA_map g k rest

theorem lookupA_perm {α : Type} (k : String) :
    ∀ {l1 l2 : List (String × α)}, l1.Perm l2 →
      (l1.map Prod.fst).Nodup → lookupA k l1 = lookupA k l2 := by
  intro l1 l2 hp
  induction hp with
  | nil => intro _; rfl
  | cons x p ih =>
    intro hnd
    simp only [List.map_cons, List.nodup_cons] at hnd
    simp only [lookupA]
    by_cases h : k = x.1
    · simp [h]
    · simp only [if_neg h]
      exact ih hnd.2
  | swap x y l =>
    intro hnd
    simp only [List.map_cons, List.nodup_cons, List.mem_cons] at hnd
    have hxy : y.1 ≠ x.1 := fun he => hnd.1 (Or.inl he)
    simp only [lookupA]
    by_cases h1 : k = y.1 <;> by_cases h2 : k = x.1
    · exact absurd (h1 ▸ h2 : y.1 = x.1).symm (Ne.symm hxy)
    · simp [h1, h2, hxy]
    · simp [h1, h2, Ne.symm hxy]
    · simp [h1, h2]
  | trans p1 p2 ih1 ih2 =>
    intro hnd
    have hnd2 := ((p1.map Prod.fst).nodup_iff).mp hnd
    rw [ih1 hnd, ih2 hnd2]

/-- One lockfile entry survives the write/read round trip with only the name
recomputed from the key. -/
theorem fromLock_toLock (k : String) (p : ResolvedPackage) :
    fromLockPkg k (toLockPkg p) = { p with name := nameFromKey k } := by
  unfold fromLockPkg toLockPkg
  by_cases h1 : p.dependencies.isEmpty <;>
  by_cases h2 : p.peerDependencies.isEmpty <;>
  by_cases h3 : p.optionalDependencies.isEmpty <;>
  by_cases h4 : p.bin.isEmpty <;>
  by_cases h5 : p.optional <;>
  by_cases h6 : p.dev <;>
    simp_all [List.isEmpty_iff]

/-- C7: the lockfile round trip — `read` accepts what `write` produced, and
looking any key up in `toResolvedPackages (write flat)` yields exactly the
entry of `flat` at that key with its `name` recomputed by splitting the key
at the last `@` (empty sub-maps and false flags having been dropped on write
and restored on read). -/
theorem c7_lockfile_roundtrip (flat : List (String × ResolvedPackage))
    (pj : PackageJson) (hnd : (flat.map Prod.fst).Nodup) :
    readLock (writeLock flat pj) = some (writeLock flat pj) ∧
    ∀ k, lookupA k (toResolvedPackages (writeLock flat pj)) =
      (lookupA k flat).map (fun p => { p with name := nameFromKey k }) := by
  constructor
  · simp [readLock, writeLock, LOCKFILE_VERSION]
  · intro k
    have hperm : (sortEntries flat).Perm flat := List.perm_insertionSort _ _
    have hnds : ((sortEntries flat).map Prod.fst).Nodup := by
      have := (hperm.map Prod.fst).nodup_iff
      exact this.mpr hnd
    have h1 : toResolvedPackages (writeLock flat pj) =
        (sortEntries flat).map
          (fun e => (e.1, fromLockPkg e.1 (toLockPkg e.2))) := by
      unfold toResolvedPackages writeLock
      simp only [List.map_map]
      rfl
    rw [h1]
    have h2 : ((sortEntries flat).map
        (fun e => (e.1, fromLockPkg e.1 (toLockPkg e.2)))) =
        (sortEntries flat).map
          (fun e => (e.1, { e.2 with name := nameFromKey e.1 })) := by
      apply List.map_congr_left
      intro e _
      rw [fromLock_toLock]
    rw [h2]
    have h3 := lookupA_map (fun key p => { p with name := nameFromKey key }) k
      (sortEntries flat)
    rw [h3]
    rw [lookupA_perm k hperm hnds]

/-- Witness for C7 at a one-entry flat map with a scoped package name. -/
theorem c7_lockfile_roundtrip_witness :
    lookupA "@s/a@1.0.0" (toResolvedPackages (writeLock
      [("@s/a@1.0.0",
        ⟨"@s/a", "1.0.0", "url", "sha512-X", [("b", "^1.0.0")], [], [], [],
          true, false⟩)]
      ⟨some [("a", "^1")], none⟩)) =
    (lookupA "@s/a@1.0.0"
      ([("@s/a@1.0.0",
        ⟨"@s/a", "1.0.0", "url", "sha512-X", [("b", "^1.0.0")], [], [], [],
          true, false⟩)] : List (String × ResolvedPackage))).map
      (fun p => { p with name := nameFromKey "@s/a@1.0.0" }) :=
  (c7_lockfile_roundtrip
    [("@s/a@1.0.0",
      ⟨"@s/a", "1.0.0", "url", "sha512-X", [("b", "^1.0.0")], [], [], [],
        true, false⟩)]
    ⟨some [("a", "^1")], none⟩ (by decide)).2 "@s/a@1.0.0"

/-- C8: the written lockfile content is the two-space-indented
`JSON.stringify` of the lockfile object followed by exactly one trailing
newline (the character before the final newline is the closing brace), the
`packages` keys appear in lexicographically sorted order, and the file is
persisted by writing a distinct temporary file and renaming it onto
`vex-lock.json`. -/
theorem c8_lockfile_format (flat : List (String × ResolvedPackage))
    (pj : PackageJson) (cwd : String) (dirExists : Bool) (now : Nat) :
    lockContent flat pj = renderJson (lockfileJson (writeLock flat pj)) 0 ++ "\n" ∧
    (∃ s, lockContent flat pj = s ++ "\x7d" ++ "\n") ∧
    List.Pairwise (fun a b => a.1 ≤ b.1) (writeLock flat pj).packages ∧
    (∃ pre tmp, writeLockfileActions flat pj cwd dirExists now =
      pre ++ [.writeText tmp (lockContent flat pj),
        .rename tmp (cwd ++ "/vex-lock.json")] ∧
      tmp ≠ cwd ++ "/vex-lock.json") := by
  refine ⟨rfl, ⟨_, rfl⟩, ?_, ?_⟩
  · have hs : List.Pairwise (fun (a b : String × ResolvedPackage) => a.1 ≤ b.1)
        (sortEntries flat) := List.sorted_insertionSort _ _
    unfold writeLock
    exact (List.pairwise_map).mpr hs
  · refine ⟨if dirExists then [] else [.mkdirp (dirname (cwd ++ "/vex-lock.json"))],
      (cwd ++ "/vex-lock.json") ++ ".tmp." ++ toString now, rfl, ?_⟩
    intro he
    have hd := congrArg String.data he
    rw [string_data_append, string_data_append] at hd
    have hlen := congrArg List.length hd
    simp only [List.length_append, List.length_cons, List.length_nil] at hlen
    omega

end Vex
